import Mathlib

/-!
# Verification of `src/training/tools/functions.py` (HHESTIA utility module)

Shallow embedding of the module's functions and proofs of the specified
properties.  Python lists become Lean `List`s; in-place mutation becomes
explicit state passing; the `random.randint` oracle becomes an explicit
stream of draws; numeric values are idealised as rationals (`ℚ`), with an
explicit tagged type where IEEE division-by-zero behaviour matters;
plotting side effects become event traces.
-/

namespace HHESTIA

/-! ## Substring test (Python `pat in name`) -/

/-- Python's `pat in s` substring containment, on Lean strings
(case-sensitive): some suffix of `s` starts with `pat`. -/
def strContains (s pat : String) : Bool :=
  (List.range (s.toList.length + 1)).any
    (fun i => pat.toList.isPrefixOf (s.toList.drop i))

/-! ## `getBranchNames` (functions.py lines 71-91)

The `TTree` input is consumed only through `GetListOfBranches` /
`GetName`, so it is modelled as the list of its branch names.  The loop
appends a name unless one of the five `continue` guards fires. -/

def getBranchNames : List String → List String
  | [] => []
  | name :: rest =>
    if strContains name "nJets" then getBranchNames rest
    else if strContains name "SoftDropMass" then getBranchNames rest
    else if strContains name "mass" then getBranchNames rest
    else if strContains name "gen" then getBranchNames rest
    else if strContains name "pt" then getBranchNames rest
    else name :: getBranchNames rest

/-- The denylist predicate, written from the spec's words: a name passes
iff it contains none of the five fixed substrings. -/
def denyListFree (name : String) : Bool :=
  !(strContains name "nJets" || strContains name "SoftDropMass" ||
    strContains name "mass" || strContains name "gen" ||
    strContains name "pt")

/-! ## `appendTreeArray` (functions.py lines 99-106)

The structured numpy array is a list of rows of some row type `R`;
`list(entry)` (field values in field order) is an abstract conversion
`fieldVals : R → List V`.  `copy.copy` of a list is a shallow copy:
a new list with the same elements, modelled as the identity on values. -/

def appendTreeArray {R V : Type} (fieldVals : R → List V) (array : List R) :
    List (List V) :=
  let tmpArray := array.foldl (fun acc entry => acc ++ [fieldVals entry]) []
  let newArray := tmpArray
  newArray

/-! ## `randomizeData` (functions.py lines 114-127)

`array` is a list of pools (each a Python list of rows, popped in place).
The `random.randint(0, len(array)-1)` oracle is modelled as an explicit
finite stream of draws; the while loop becomes a recursion that consumes
one draw per iteration and returns `none` if the stream runs out before
`nEvents` reaches `0` (the real loop would simply keep drawing).  Each
iteration: if the drawn pool is non-empty, `pop()` removes and returns
its last element, which is appended to `trainData`, the drawn index is
appended to `targetData`, and `nEvents` decrements; otherwise the state
is unchanged.  The final pools are returned alongside `(trainData,
targetData)` to expose the in-place draining. -/

def randLoop {α : Type} :
    List Nat → List (List α) → List α → List Nat → Nat →
    Option (List (List α) × List α × List Nat)
  | _, pools, trainData, targetData, 0 => some (pools, trainData, targetData)
  | [], _, _, _, _ + 1 => none
  | rng :: rest, pools, trainData, targetData, n + 1 =>
    match (pools.getD rng []).getLast? with
    | some x =>
        randLoop rest (pools.set rng (pools.getD rng []).dropLast)
          (trainData ++ [x]) (targetData ++ [rng]) n
    | none => randLoop rest pools trainData targetData (n + 1)

def randomizeData {α : Type} (draws : List Nat) (array : List (List α)) :
    Option (List (List α) × List α × List Nat) :=
  randLoop draws array [] [] (array.map List.length).sum

/-- Loop invariant of `randomizeData` relating the current state
(`cur`, `trainData`, `targetData`) to the original pools: output lengths
agree; rows emitted so far plus rows still pooled are exactly the
original rows; per-pool accounting of emitted labels; each current pool
is a prefix of its original pool (rows are popped off the end); and each
emitted row is a member of the pool its label names. -/
structure RandInv {α : Type} (pools cur : List (List α)) (train : List α)
    (target : List Nat) : Prop where
  len_eq : cur.length = pools.length
  tt_len : train.length = target.length
  mset : (train : Multiset α) + (cur.flatten : Multiset α)
    = (pools.flatten : Multiset α)
  cnt : ∀ i, target.count i + (cur.getD i []).length
    = (pools.getD i []).length
  pref : ∀ i, ∃ t, (cur.getD i []) ++ t = pools.getD i []
  pair : ∀ k x i, train.get? k = some x → target.get? k = some i →
    x ∈ pools.getD i []

/-! ## `plot_confusion_matrix` (functions.py lines 31-63)

Only the data transformation on `cm` is modelled (the heatmap rendering
consumes the resulting matrix unchanged).  The matrix is a list of rows
of rationals.  `cm.astype('float') / cm.sum(axis=1)[:, numpy.newaxis]`
divides every entry by its row's sum, producing a fresh array. -/

def rowNormalize (cm : List (List ℚ)) : List (List ℚ) :=
  cm.map (fun row => row.map (fun x => x / row.sum))

/-- The matrix value that lines 45-59 print and plot: normalised when the
flag is set, the input unchanged otherwise. -/
def plot_confusion_matrix (cm : List (List ℚ)) (normalize : Bool) :
    List (List ℚ) :=
  if normalize then rowNormalize cm else cm

/-- An entry of the normalised matrix under IEEE-754 division semantics
(as numpy's true division behaves): a finite value, a signed infinity,
or NaN. -/
inductive NEntry where
  | num : ℚ → NEntry
  | posInf : NEntry
  | negInf : NEntry
  | nan : NEntry
deriving DecidableEq

/-- numpy float division `x / s`, exact on finite values: `x / 0` is NaN
when `x = 0`, a signed infinity otherwise. -/
def ndiv (x s : ℚ) : NEntry :=
  if s = 0 then (if x = 0 then .nan else if 0 < x then .posInf else .negInf)
  else .num (x / s)

/-- Line 40 under IEEE division: every entry divided by its row's sum,
with division-by-zero producing NaN/Inf instead of raising. -/
def rowNormalizeIEEE (cm : List (List ℚ)) : List (List NEntry) :=
  cm.map (fun row => row.map (fun x => ndiv x row.sum))

/-! ### Store-passing model of the `cm` rebinding (for the frame claim)

numpy arrays are heap objects; `cm = cm.astype('float') / ...` allocates
a fresh array (`astype` copies, true division allocates) and rebinds the
local name, leaving the caller's array untouched.  A store maps
references (indices) to matrix contents. -/

structure Store where
  arrays : List (List (List ℚ))

def Store.read (h : Store) (r : Nat) : List (List ℚ) :=
  h.arrays.getD r []

def Store.alloc (h : Store) (v : List (List ℚ)) : Store × Nat :=
  (⟨h.arrays ++ [v]⟩, h.arrays.length)

/-- Lines 39-45 with the heap explicit: returns the store after the call
and the reference the local name `cm` holds when the matrix is printed
and plotted. -/
def plot_confusion_matrix_state (h : Store) (cmRef : Nat)
    (normalize : Bool) : Store × Nat :=
  if normalize then h.alloc (rowNormalize (h.read cmRef))
  else (h, cmRef)

/-! ## `plotPerformance` (functions.py lines 139-160)

`loss` and `acc` are pairs (training series, validation series); the
matplotlib calls become an event trace in program order.  Line 155 plots
`acc[0]` again under the label `val_acc`. -/

inductive PerfEvent where
  | figure (w h : Nat)
  | subplot (rows cols index : Nat)
  | plotSeries (data : List ℚ) (label : String)
  | legend (loc : String)
  | xlabel (s : String)
  | ylabel (s : String)
  | savefig (path : String)
deriving DecidableEq

def plotPerformance (loss acc : List ℚ × List ℚ) : List PerfEvent :=
  [ .figure 15 10,
    .subplot 2 2 1,
    .plotSeries loss.1 "loss",
    .plotSeries loss.2 "val_loss",
    .legend "upper right",
    .xlabel "epoch",
    .ylabel "loss",
    .savefig "plots/loss.pdf",
    .savefig "plots/loss.png",
    .subplot 2 2 2,
    .plotSeries acc.1 "acc",
    .plotSeries acc.1 "val_acc",
    .legend "upper left",
    .xlabel "epoch",
    .ylabel "acc",
    .savefig "plots/acc.pdf",
    .savefig "plots/acc.png" ]

/-! ## `plotProbabilities` (functions.py lines 182-192)

`probs` is a list of triples `(probArray, label, color)`; `probArray` is
a per-event list of per-class probability rows, so `probArray.T[i]` is
the column of class-`i` probabilities.  The matplotlib calls become an
event trace.  Note `plt.figure()` (line 186) sits inside the inner
`jProb` loop: every `(iProb, jProb)` pair opens its own figure, draws a
single histogram, saves `prob_<label_i>.pdf` and closes. -/

inductive ProbEvent where
  | figure
  | xlabel (s : String)
  | hist (data : List ℚ) (label : String) (color : String)
  | legend
  | savefig (path : String)
  | closeFig
deriving DecidableEq

/-- `probArray.T[i]`: the class-`i` probability of every event. -/
def column (i : Nat) (arr : List (List ℚ)) : List ℚ :=
  arr.map (fun row => row.getD i 0)

/-- The trace of one inner-loop iteration (one `(iProb, jProb)` pair):
lines 186-192. -/
def probFigure (probs : List (List (List ℚ) × String × String))
    (iProb jProb : Nat) : List ProbEvent :=
  let pi := probs.getD iProb ([], "", "")
  let pj := probs.getD jProb ([], "", "")
  [ .figure,
    .xlabel ("Probability for " ++ pi.2.1 ++ " Classification"),
    .hist (column iProb pj.1) pj.2.1 pj.2.2,
    .legend,
    .savefig ("prob_" ++ pi.2.1 ++ ".pdf"),
    .closeFig ]

def plotProbabilities (probs : List (List (List ℚ) × String × String)) :
    List ProbEvent :=
  (List.range probs.length).flatMap (fun iProb =>
    (List.range probs.length).flatMap (fun jProb =>
      probFigure probs iProb jProb))

def isFigure : ProbEvent → Bool
  | .figure => true
  | _ => false

def isHist : ProbEvent → Bool
  | .hist _ _ _ => true
  | _ => false

def isSaveTo (path : String) : ProbEvent → Bool
  | .savefig q => path == q
  | _ => false

/-! ## `make_keras_picklable` (functions.py 200-219)

The hooks installed on `keras.models.Model` are modelled abstractly over
the model type, the byte-blob type and the model-native save/load pair:
`__getstate__` writes the model through `save_model` to a temporary file
and returns its raw bytes as the state dict; `__setstate__` writes the
bytes back and replaces the instance wholesale by `load_model`'s
result. -/

def getstate_hook {Model Bytes : Type} (save_model : Model → Bytes)
    (self : Model) : Bytes :=
  let model_str := save_model self
  model_str

def setstate_hook {Model Bytes : Type} (load_model : Bytes → Model)
    (state : Bytes) : Model :=
  load_model state

/-- The patch: the pair of hooks installed on `keras.models.Model`
(capture to bytes, restore from bytes). -/
def make_keras_picklable {Model Bytes : Type} (save_model : Model → Bytes)
    (load_model : Bytes → Model) : (Model → Bytes) × (Bytes → Model) :=
  (getstate_hook save_model, setstate_hook load_model)

/-! ## Proofs: `getBranchNames` -/

lemma getBranchNames_cons (name : String) (rest : List String) :
    getBranchNames (name :: rest) =
      if denyListFree name then name :: getBranchNames rest
      else getBranchNames rest := by
  simp only [getBranchNames, denyListFree]
  split_ifs <;> simp_all

lemma getBranchNames_eq_filter (tree : List String) :
    getBranchNames tree = tree.filter denyListFree := by
  induction tree with
  | nil => rfl
  | cons name rest ih =>
    rw [getBranchNames_cons, List.filter_cons]
    cases h : denyListFree name <;> simp [h, ih]

/-- C3: `getBranchNames` returns exactly the input names containing none
of the five denylisted substrings, in the input's original order (an
ordered sublist of the input), and on the example input
`["pt1","massSD","jetAK8_eta","nJets"]` it yields `["jetAK8_eta"]`. -/
theorem getBranchNames_spec :
    (∀ tree : List String, getBranchNames tree = tree.filter denyListFree) ∧
    (∀ tree : List String, List.Sublist (getBranchNames tree) tree) ∧
    getBranchNames ["pt1", "massSD", "jetAK8_eta", "nJets"] = ["jetAK8_eta"] := by
  refine ⟨getBranchNames_eq_filter, ?_, by decide⟩
  intro tree
  rw [getBranchNames_eq_filter]
  exact List.filter_sublist tree

/-! ## Proofs: `appendTreeArray` -/

lemma foldl_append_eq_map {R V : Type} (fieldVals : R → List V) :
    ∀ (l : List R) (acc : List (List V)),
      l.foldl (fun acc entry => acc ++ [fieldVals entry]) acc
        = acc ++ l.map fieldVals := by
  intro l
  induction l with
  | nil => intro acc; simp
  | cons r rest ih => intro acc; simp [List.foldl_cons, ih]

lemma appendTreeArray_eq_map {R V : Type} (fieldVals : R → List V)
    (array : List R) :
    appendTreeArray fieldVals array = array.map fieldVals := by
  simp [appendTreeArray, foldl_append_eq_map]

/-- C4: `appendTreeArray` preserves length, and its `i`-th element is the
`i`-th input row's field values (in field order), untransformed and
unfiltered; the input is not consumed or reordered. -/
theorem appendTreeArray_spec {R V : Type} (fieldVals : R → List V)
    (array : List R) :
    (appendTreeArray fieldVals array).length = array.length ∧
    ∀ i : Nat, (appendTreeArray fieldVals array).get? i
        = (array.get? i).map fieldVals := by
  rw [appendTreeArray_eq_map]
  exact ⟨List.length_map _ _, fun i => List.get?_map _ _ _⟩

/-! ## Proofs: `plot_confusion_matrix` -/

lemma sum_map_div (row : List ℚ) (s : ℚ) :
    (row.map (fun x => x / s)).sum = row.sum / s := by
  induction row with
  | nil => simp
  | cons x rest ih => simp [ih, add_div]

/-- C5: with `normalize` set, the printed/plotted matrix divides every
entry by its row's sum, making every row with nonzero sum sum to `1`
(e.g. `[[8,2],[3,7]]` becomes `[[0.8,0.2],[0.3,0.7]]`); with `normalize`
unset, the matrix is the input unchanged. -/
theorem plot_confusion_matrix_normalize_spec :
    (∀ cm : List (List ℚ), plot_confusion_matrix cm false = cm) ∧
    (∀ (cm : List (List ℚ)) (i : Nat),
      (plot_confusion_matrix cm true).get? i
        = (cm.get? i).map (fun row => row.map (fun x => x / row.sum))) ∧
    (∀ (cm : List (List ℚ)) (row' : List ℚ),
      row' ∈ plot_confusion_matrix cm true →
      ∃ row ∈ cm, row' = row.map (fun x => x / row.sum) ∧
        (row.sum ≠ 0 → row'.sum = 1)) ∧
    plot_confusion_matrix [[8, 2], [3, 7]] true = [[0.8, 0.2], [0.3, 0.7]] := by
  refine ⟨fun cm => rfl, ?_, ?_, ?_⟩
  · intro cm i
    simp [plot_confusion_matrix, rowNormalize, List.get?_map]
  · intro cm row' hmem
    simp only [plot_confusion_matrix, if_true, rowNormalize, List.mem_map] at hmem
    obtain ⟨row, hrow, rfl⟩ := hmem
    refine ⟨row, hrow, rfl, fun hs => ?_⟩
    rw [sum_map_div, div_self hs]
  · norm_num [plot_confusion_matrix, rowNormalize]

/-- Witness for C5: the normalisation hypotheses hold at the example
matrix, whose first normalised row sums to `1`. -/
theorem plot_confusion_matrix_normalize_witness :
    ([(8 : ℚ)/10, 2/10] : List ℚ).sum = 1 := by
  obtain ⟨row, hrow, -, hsum⟩ :=
    plot_confusion_matrix_normalize_spec.2.2.1 [[8, 2]] [8/10, 2/10]
      (by norm_num [plot_confusion_matrix, rowNormalize])
  have hr : row = [(8 : ℚ), 2] := by simpa using hrow
  subst hr
  exact hsum (by norm_num)

/-- C8: normalisation with a zero row sum is unguarded and surfaces as
NaN/Inf entries (numpy IEEE division), raising no exception; when every
row sum is nonzero, every produced entry is a finite number (no
division-by-zero occurs). -/
theorem rowNormalizeIEEE_div_by_zero_spec :
    (∀ (cm : List (List ℚ)) (row : List ℚ), row ∈ cm → row.sum = 0 →
      row.map (fun x => ndiv x row.sum) ∈ rowNormalizeIEEE cm ∧
      ∀ e ∈ row.map (fun x => ndiv x row.sum),
        e = NEntry.nan ∨ e = NEntry.posInf ∨ e = NEntry.negInf) ∧
    (∀ cm : List (List ℚ), (∀ row ∈ cm, row.sum ≠ 0) →
      ∀ orow ∈ rowNormalizeIEEE cm, ∀ e ∈ orow, ∃ q, e = NEntry.num q) := by
  constructor
  · intro cm row hmem hsum
    refine ⟨List.mem_map_of_mem _ hmem, ?_⟩
    intro e he
    rw [List.mem_map] at he
    obtain ⟨x, -, rfl⟩ := he
    rw [hsum]
    by_cases hx : x = 0
    · simp [ndiv, hx]
    · by_cases hpos : 0 < x <;> simp [ndiv, hx, hpos]
  · intro cm hall orow ho e he
    rw [rowNormalizeIEEE, List.mem_map] at ho
    obtain ⟨row, hrow, rfl⟩ := ho
    rw [List.mem_map] at he
    obtain ⟨x, -, rfl⟩ := he
    exact ⟨x / row.sum, by simp [ndiv, hall row hrow]⟩

/-- Witness for C8: a zero-sum row (`[1,-1]`) does produce its NaN/Inf
row, and a nonzero-sum row (`[8,2]`) produces only finite entries. -/
theorem rowNormalizeIEEE_div_by_zero_witness :
    ([(1 : ℚ), -1].map (fun x => ndiv x ([(1 : ℚ), -1] : List ℚ).sum)
        ∈ rowNormalizeIEEE [[(1 : ℚ), -1]]) ∧
    (∃ q, ndiv 8 ([(8 : ℚ), 2] : List ℚ).sum = NEntry.num q) := by
  constructor
  · exact (rowNormalizeIEEE_div_by_zero_spec.1 [[(1 : ℚ), -1]] [1, -1]
      (by simp) (by norm_num)).1
  · exact rowNormalizeIEEE_div_by_zero_spec.2 [[(8 : ℚ), 2]]
      (by intro row hrow; simp at hrow; subst hrow; norm_num)
      ([(8 : ℚ), 2].map (fun x => ndiv x ([(8 : ℚ), 2] : List ℚ).sum))
      (by simp [rowNormalizeIEEE])
      (ndiv 8 ([(8 : ℚ), 2] : List ℚ).sum)
      (by simp)

/-- C10: `plot_confusion_matrix` never mutates the caller's matrix: the
normalised matrix is a freshly allocated array to which the local name is
rebound, so the caller's reference still holds the original entries after
the call, while the printed/plotted reference holds the (possibly
normalised) result. -/
theorem plot_confusion_matrix_frame (h : Store) (cmRef : Nat)
    (normalize : Bool) (hvalid : cmRef < h.arrays.length) :
    ((plot_confusion_matrix_state h cmRef normalize).1).read cmRef
        = h.read cmRef ∧
    ((plot_confusion_matrix_state h cmRef normalize).1).read
        (plot_confusion_matrix_state h cmRef normalize).2
      = plot_confusion_matrix (h.read cmRef) normalize := by
  cases normalize with
  | false => exact ⟨rfl, rfl⟩
  | true =>
    constructor
    · simp only [plot_confusion_matrix_state, if_true, Store.alloc, Store.read]
      exact List.getD_append _ _ _ _ hvalid
    · simp only [plot_confusion_matrix_state, if_true, Store.alloc, Store.read,
        plot_confusion_matrix]
      rw [List.getD_eq_getElem?_getD, List.getElem?_concat_length]
      rfl

/-- Witness for C10: a concrete one-matrix store with a valid reference. -/
theorem plot_confusion_matrix_frame_witness :
    ((plot_confusion_matrix_state ⟨[[[2, 2]]]⟩ 0 true).1).read 0
        = Store.read ⟨[[[2, 2]]]⟩ 0 ∧
    ((plot_confusion_matrix_state ⟨[[[2, 2]]]⟩ 0 true).1).read
        (plot_confusion_matrix_state ⟨[[[2, 2]]]⟩ 0 true).2
      = plot_confusion_matrix (Store.read ⟨[[[2, 2]]]⟩ 0) true :=
  plot_confusion_matrix_frame ⟨[[[2, 2]]]⟩ 0 true (by decide)

/-! ## Proofs: `plotPerformance` -/

/-- C7: `plotPerformance` saves the loss subplot to `plots/loss.pdf` and
`plots/loss.png` (plotting `loss[0]` and `loss[1]`) and the accuracy
subplot to `plots/acc.pdf` and `plots/acc.png`; in the accuracy subplot
it plots `acc[0]` twice (labelled `acc` and `val_acc`): `acc[1]` is never
read, so the trace depends only on `acc[0]`. -/
theorem plotPerformance_spec :
    (∀ (loss acc acc' : List ℚ × List ℚ), acc.1 = acc'.1 →
      plotPerformance loss acc = plotPerformance loss acc') ∧
    (∀ loss acc : List ℚ × List ℚ,
      PerfEvent.savefig "plots/loss.pdf" ∈ plotPerformance loss acc ∧
      PerfEvent.savefig "plots/loss.png" ∈ plotPerformance loss acc ∧
      PerfEvent.savefig "plots/acc.pdf" ∈ plotPerformance loss acc ∧
      PerfEvent.savefig "plots/acc.png" ∈ plotPerformance loss acc ∧
      PerfEvent.plotSeries loss.1 "loss" ∈ plotPerformance loss acc ∧
      PerfEvent.plotSeries loss.2 "val_loss" ∈ plotPerformance loss acc ∧
      PerfEvent.plotSeries acc.1 "acc" ∈ plotPerformance loss acc ∧
      PerfEvent.plotSeries acc.1 "val_acc" ∈ plotPerformance loss acc) ∧
    (∀ (loss acc : List ℚ × List ℚ) (d : List ℚ) (lab : String),
      PerfEvent.plotSeries d lab ∈ plotPerformance loss acc →
        d = loss.1 ∨ d = loss.2 ∨ d = acc.1) := by
  refine ⟨?_, ?_, ?_⟩
  · intro loss acc acc' hacc
    simp [plotPerformance, hacc]
  · intro loss acc
    simp [plotPerformance]
  · intro loss acc d lab hmem
    simp only [plotPerformance, List.mem_cons, List.not_mem_nil, or_false] at hmem
    rcases hmem with h | h | h | h | h | h | h | h | h | h | h | h | h | h | h | h | h <;>
      simp_all

/-- Witness for C7: the trace is invariant under replacing the validation
accuracy series, at concrete inputs, and a concrete plotted series is one
of the three consumed series. -/
theorem plotPerformance_spec_witness :
    plotPerformance ([1], [2]) ([3], [4]) = plotPerformance ([1], [2]) ([3], [9]) ∧
    (([3] : List ℚ) = (([1], [2]) : List ℚ × List ℚ).1 ∨
      ([3] : List ℚ) = (([1], [2]) : List ℚ × List ℚ).2 ∨
      ([3] : List ℚ) = (([3], [4]) : List ℚ × List ℚ).1) := by
  constructor
  · exact plotPerformance_spec.1 ([1], [2]) ([3], [4]) ([3], [9]) rfl
  · exact plotPerformance_spec.2.2 ([1], [2]) ([3], [4]) [3] "acc"
      (by simp [plotPerformance])

/-! ## Proofs: `make_keras_picklable` -/

/-- C9: after patching, restoring from the captured state yields a model
whose weights equal the original model's weights, assuming the
model-native save and load operations are mutually inverse (up to
weights). -/
theorem make_keras_picklable_roundtrip {Model Bytes W : Type}
    (save_model : Model → Bytes) (load_model : Bytes → Model)
    (get_weights : Model → W)
    (hinv : ∀ m, get_weights (load_model (save_model m)) = get_weights m)
    (m : Model) :
    get_weights ((make_keras_picklable save_model load_model).2
        ((make_keras_picklable save_model load_model).1 m))
      = get_weights m := by
  simpa [make_keras_picklable, getstate_hook, setstate_hook] using hinv m

/-- Witness for C9: the inverse-pair hypothesis holds for the identity
save/load pair on a concrete model value. -/
theorem make_keras_picklable_roundtrip_witness :
    (fun m : Nat => m)
        ((make_keras_picklable (fun m : Nat => m) (fun b : Nat => b)).2
          ((make_keras_picklable (fun m : Nat => m) (fun b : Nat => b)).1 5))
      = (fun m : Nat => m) 5 :=
  make_keras_picklable_roundtrip (fun m => m) (fun b => b) (fun m => m)
    (fun _ => rfl) 5

/-! ## Proofs: `plotProbabilities` -/

lemma countP_flatMap {α β : Type} (p : β → Bool) (l : List α)
    (f : α → List β) :
    (l.flatMap f).countP p = (l.map (fun a => (f a).countP p)).sum := by
  induction l with
  | nil => rfl
  | cons a rest ih => simp [List.flatMap_cons, List.countP_append, ih]

lemma probFigure_countP_isFigure
    (probs : List (List (List ℚ) × String × String)) (i j : Nat) :
    (probFigure probs i j).countP isFigure = 1 := by
  simp [probFigure, List.countP_cons, isFigure]

lemma probFigure_countP_isHist
    (probs : List (List (List ℚ) × String × String)) (i j : Nat) :
    (probFigure probs i j).countP isHist = 1 := by
  simp [probFigure, List.countP_cons, isHist]

lemma probFigure_countP_isSaveTo
    (probs : List (List (List ℚ) × String × String)) (i j : Nat) (s : String) :
    (probFigure probs i j).countP (isSaveTo s)
      = if s = "prob_" ++ (probs.getD i ([], "", "")).2.1 ++ ".pdf"
        then 1 else 0 := by
  simp [probFigure, List.countP_cons, isSaveTo]

lemma plotProbabilities_countP
    (probs : List (List (List ℚ) × String × String)) (p : ProbEvent → Bool) :
    (plotProbabilities probs).countP p
      = ((List.range probs.length).map (fun i =>
          ((List.range probs.length).map
            (fun j => (probFigure probs i j).countP p)).sum)).sum := by
  simp [plotProbabilities, countP_flatMap]

lemma sum_map_const (N c : Nat) :
    ((List.range N).map (fun _ => c)).sum = N * c := by
  simp [List.map_const', List.sum_replicate, smul_eq_mul]

lemma sum_range_spike (c i : Nat) :
    ∀ N, i < N →
      ((List.range N).map (fun k => if k = i then c else 0)).sum = c := by
  intro N
  induction N with
  | zero => intro hi; exact absurd hi (Nat.not_lt_zero i)
  | succ N ih =>
    intro hi
    rw [List.range_succ, List.map_append, List.sum_append]
    by_cases h : i = N
    · subst h
      have hz : ((List.range i).map (fun k => if k = i then c else 0)).sum
          = 0 := by
        apply List.sum_eq_zero
        intro x hx
        rw [List.mem_map] at hx
        obtain ⟨k, hk, rfl⟩ := hx
        rw [List.mem_range] at hk
        simp [Nat.ne_of_lt hk]
      simp [hz]
    · have hi' : i < N := by omega
      rw [ih hi']
      have hne : N ≠ i := fun hh => h hh.symm
      simp [hne]

lemma probFileName_inj {a b : String}
    (h : "prob_" ++ a ++ ".pdf" = "prob_" ++ b ++ ".pdf") : a = b := by
  have hd := congrArg String.data h
  simp only [String.data_append, List.append_assoc] at hd
  exact String.ext (List.append_cancel_right (List.append_cancel_left hd))

/-- Counterexample to C6: for a concrete 2-class bundle the code opens
4 figures, not 2, and draws 4 single-series histograms (`plt.figure()`
sits inside the inner loop). -/
theorem plotProbabilities_claim_counterexample :
    ¬ ((plotProbabilities [([[0.9, 0.1], [0.8, 0.2]], "H", "b"),
        ([[0.3, 0.7]], "QCD", "r")]).countP isFigure = 2
      ∧ ∀ i j, (probFigure [([[0.9, 0.1], [0.8, 0.2]], "H", "b"),
          ([[0.3, 0.7]], "QCD", "r")] i j).countP isHist = 2) := by
  intro hclaim
  have h1 := hclaim.1
  have h4 : (plotProbabilities [([[0.9, 0.1], [0.8, 0.2]], "H", "b"),
      ([[0.3, 0.7]], "QCD", "r")]).countP isFigure = 4 := by decide
  rw [h4] at h1
  exact absurd h1 (by decide)

/-- C6 (amended): for an N-class bundle, `plotProbabilities` produces
N·N figures, one per pair `(i, j)`; each figure contains exactly one
histogram series and is saved once as `prob_<label_i>.pdf`, so each of
the N distinct filenames is written N times (each write overwriting the
previous one). -/
theorem plotProbabilities_amended
    (probs : List (List (List ℚ) × String × String)) :
    (plotProbabilities probs).countP isFigure
        = probs.length * probs.length ∧
    (plotProbabilities probs).countP isHist
        = probs.length * probs.length ∧
    (∀ i j : Nat,
      (probFigure probs i j).countP isFigure = 1 ∧
      (probFigure probs i j).countP isHist = 1 ∧
      (probFigure probs i j).countP
        (isSaveTo ("prob_" ++ (probs.getD i ([], "", "")).2.1 ++ ".pdf"))
          = 1) ∧
    (∀ i, i < probs.length →
      (∀ j, j < probs.length → j ≠ i →
        (probs.getD j ([], "", "")).2.1 ≠ (probs.getD i ([], "", "")).2.1) →
      (plotProbabilities probs).countP
        (isSaveTo ("prob_" ++ (probs.getD i ([], "", "")).2.1 ++ ".pdf"))
          = probs.length) := by
  refine ⟨?_, ?_, ?_, ?_⟩
  · rw [plotProbabilities_countP]
    have : ∀ i : Nat, ((List.range probs.length).map
        (fun j => (probFigure probs i j).countP isFigure)).sum
          = probs.length := by
      intro i
      rw [List.map_congr_left (fun j _ => probFigure_countP_isFigure probs i j)]
      simp [sum_map_const]
    rw [List.map_congr_left (fun i _ => this i)]
    exact sum_map_const probs.length probs.length
  · rw [plotProbabilities_countP]
    have : ∀ i : Nat, ((List.range probs.length).map
        (fun j => (probFigure probs i j).countP isHist)).sum
          = probs.length := by
      intro i
      rw [List.map_congr_left (fun j _ => probFigure_countP_isHist probs i j)]
      simp [sum_map_const]
    rw [List.map_congr_left (fun i _ => this i)]
    exact sum_map_const probs.length probs.length
  · intro i j
    refine ⟨probFigure_countP_isFigure probs i j,
      probFigure_countP_isHist probs i j, ?_⟩
    rw [probFigure_countP_isSaveTo]
    simp
  · intro i hi hdistinct
    rw [plotProbabilities_countP]
    have hblock : ∀ k : Nat, k < probs.length →
        ((List.range probs.length).map (fun j =>
          (probFigure probs k j).countP
            (isSaveTo ("prob_" ++ (probs.getD i ([], "", "")).2.1
              ++ ".pdf")))).sum
          = if k = i then probs.length else 0 := by
      intro k hk
      rw [List.map_congr_left
        (fun j _ => probFigure_countP_isSaveTo probs k j _)]
      by_cases hki : k = i
      · subst hki
        simp [sum_map_const]
      · have hne : "prob_" ++ (probs.getD i ([], "", "")).2.1 ++ ".pdf"
            ≠ "prob_" ++ (probs.getD k ([], "", "")).2.1 ++ ".pdf" := by
          intro hcontra
          exact hdistinct k hk hki (probFileName_inj hcontra.symm)
        simp only [if_neg hne, if_neg hki]
        simp [sum_map_const]
    rw [List.map_congr_left (fun k hk =>
      hblock k (List.mem_range.mp hk))]
    exact sum_range_spike probs.length i probs.length hi

/-- Witness for C6 (amended): the distinct-labels hypothesis holds at a
concrete 2-class bundle, where each of the 2 filenames is saved twice. -/
theorem plotProbabilities_amended_witness :
    (plotProbabilities [([[(0.9 : ℚ), 0.1], [0.8, 0.2]], "H", "b"),
        ([[(0.3 : ℚ), 0.7]], "QCD", "r")]).countP
      (isSaveTo ("prob_" ++ (([([[(0.9 : ℚ), 0.1], [0.8, 0.2]], "H", "b"),
        ([[(0.3 : ℚ), 0.7]], "QCD", "r")] : List (List (List ℚ) × String × String)).getD
          0 ([], "", "")).2.1 ++ ".pdf")) = 2 := by
  have h := (plotProbabilities_amended
    [([[(0.9 : ℚ), 0.1], [0.8, 0.2]], "H", "b"),
      ([[(0.3 : ℚ), 0.7]], "QCD", "r")]).2.2.2 0 (by decide)
    (by decide)
  exact h

/-! ## Proofs: `randomizeData` -/

lemma getLast?_mem_self {α : Type} {l : List α} {x : α}
    (h : l.getLast? = some x) : x ∈ l := by
  have hne : l ≠ [] := by intro he; subst he; simp at h
  rw [List.getLast?_eq_getLast l hne] at h
  cases h
  exact List.getLast_mem hne

lemma dropLast_append_eq {α : Type} {l : List α} {x : α}
    (h : l.getLast? = some x) : l.dropLast ++ [x] = l := by
  have hne : l ≠ [] := by intro he; subst he; simp at h
  rw [List.getLast?_eq_getLast l hne] at h
  cases h
  exact List.dropLast_concat_getLast hne

lemma lt_length_of_getLast? {α : Type} {cur : List (List α)} {d : Nat}
    {x : α} (hx : (cur.getD d []).getLast? = some x) : d < cur.length := by
  by_contra h
  push_neg at h
  rw [List.getD_eq_getElem?_getD, List.getElem?_eq_none h] at hx
  simp at hx

lemma getD_set_self {α : Type} (pools : List (List α)) (d : Nat)
    (q : List α) (h : d < pools.length) : (pools.set d q).getD d [] = q := by
  rw [List.getD_eq_getElem?_getD, List.getElem?_set]
  simp [h]

lemma getD_set_ne {α : Type} (pools : List (List α)) {d j : Nat}
    (q : List α) (h : d ≠ j) :
    (pools.set d q).getD j [] = pools.getD j [] := by
  rw [List.getD_eq_getElem?_getD, List.getElem?_set, if_neg h,
    ← List.getD_eq_getElem?_getD]

lemma sumLen_set_pop {α : Type} :
    ∀ (cur : List (List α)) (d : Nat) (x : α),
      (cur.getD d []).getLast? = some x →
      ((cur.set d (cur.getD d []).dropLast).map List.length).sum + 1
        = (cur.map List.length).sum := by
  intro cur
  induction cur with
  | nil => intro d x hx; simp at hx
  | cons p rest ih =>
    intro d x hx
    cases d with
    | zero =>
      simp only [List.getD_cons_zero] at hx ⊢
      have hp := dropLast_append_eq hx
      simp only [List.set_cons_zero, List.map_cons, List.sum_cons]
      have hlen : p.dropLast.length + 1 = p.length := by
        conv_rhs => rw [← hp]
        simp
      omega
    | succ d =>
      simp only [List.getD_cons_succ] at hx ⊢
      have := ih d x hx
      simp only [List.set_cons_succ, List.map_cons, List.sum_cons]
      omega

lemma flatten_set_pop_perm {α : Type} :
    ∀ (cur : List (List α)) (d : Nat) (x : α),
      (cur.getD d []).getLast? = some x →
      List.Perm (x :: (cur.set d (cur.getD d []).dropLast).flatten)
        cur.flatten := by
  intro cur
  induction cur with
  | nil => intro d x hx; simp at hx
  | cons p rest ih =>
    intro d x hx
    cases d with
    | zero =>
      simp only [List.getD_cons_zero] at hx ⊢
      have hp := dropLast_append_eq hx
      simp only [List.set_cons_zero, List.flatten_cons]
      have h1 : (x :: (p.dropLast ++ rest.flatten)).Perm
          (p.dropLast ++ x :: rest.flatten) := List.perm_middle.symm
      have h2 : p.dropLast ++ x :: rest.flatten = p ++ rest.flatten := by
        rw [← hp]; simp
      rwa [h2] at h1
    | succ d =>
      simp only [List.getD_cons_succ] at hx ⊢
      simp only [List.set_cons_succ, List.flatten_cons]
      have h1 : (x :: (p ++ (rest.set d (rest.getD d []).dropLast).flatten)).Perm
          (p ++ x :: (rest.set d (rest.getD d []).dropLast).flatten) :=
        List.perm_middle.symm
      exact h1.trans (List.Perm.append_left p (ih d x hx))

lemma randLoop_zero {α : Type} (draws : List Nat) (cur : List (List α))
    (train : List α) (target : List Nat) :
    randLoop draws cur train target 0 = some (cur, train, target) := by
  cases draws <;> rfl

lemma randLoop_nil_succ {α : Type} (cur : List (List α)) (train : List α)
    (target : List Nat) (n : Nat) :
    randLoop [] cur train target (n + 1) = none := rfl

lemma randLoop_pop {α : Type} {cur : List (List α)} {d : Nat} {x : α}
    (hx : (cur.getD d []).getLast? = some x) (rest : List Nat)
    (train : List α) (target : List Nat) (n : Nat) :
    randLoop (d :: rest) cur train target (n + 1)
      = randLoop rest (cur.set d (cur.getD d []).dropLast)
          (train ++ [x]) (target ++ [d]) n := by
  simp only [randLoop, hx]

lemma randLoop_skip {α : Type} {cur : List (List α)} {d : Nat}
    (hx : (cur.getD d []).getLast? = none) (rest : List Nat)
    (train : List α) (target : List Nat) (n : Nat) :
    randLoop (d :: rest) cur train target (n + 1)
      = randLoop rest cur train target (n + 1) := by
  simp only [randLoop, hx]

lemma RandInv.init {α : Type} (pools : List (List α)) :
    RandInv pools pools [] [] where
  len_eq := rfl
  tt_len := rfl
  mset := by simp
  cnt := fun i => by simp
  pref := fun i => ⟨[], List.append_nil _⟩
  pair := fun k x i h _ => by simp at h

lemma RandInv.pop {α : Type} {pools cur : List (List α)} {train : List α}
    {target : List Nat} {d : Nat} {x : α}
    (hinv : RandInv pools cur train target)
    (hx : (cur.getD d []).getLast? = some x) :
    RandInv pools (cur.set d (cur.getD d []).dropLast) (train ++ [x])
      (target ++ [d]) := by
  have hd : d < cur.length := lt_length_of_getLast? hx
  have hp : (cur.getD d []).dropLast ++ [x] = cur.getD d [] :=
    dropLast_append_eq hx
  constructor
  · rw [List.length_set]; exact hinv.len_eq
  · simp [hinv.tt_len]
  · rw [← hinv.mset, Multiset.coe_add, Multiset.coe_add,
      Multiset.coe_eq_coe]
    have h1 : train ++ [x] ++ (cur.set d (cur.getD d []).dropLast).flatten
        = train ++ (x :: (cur.set d (cur.getD d []).dropLast).flatten) := by
      simp
    rw [h1]
    exact List.Perm.append_left train (flatten_set_pop_perm cur d x hx)
  · intro i
    by_cases hi : i = d
    · subst hi
      rw [getD_set_self _ _ _ hd]
      have hc := hinv.cnt i
      have hlen : (cur.getD i []).dropLast.length + 1
          = (cur.getD i []).length := by
        conv_rhs => rw [← hp]
        simp
      simp only [List.count_append, List.count_cons, List.count_nil,
        beq_self_eq_true, if_true]
      omega
    · rw [getD_set_ne _ _ (fun hh => hi hh.symm)]
      have hc := hinv.cnt i
      have hi' : ¬d = i := fun hh => hi hh.symm
      simp only [List.count_append, List.count_cons, List.count_nil,
        beq_iff_eq, hi, hi', if_false]
      omega
  · intro i
    by_cases hi : i = d
    · subst hi
      rw [getD_set_self _ _ _ hd]
      obtain ⟨t, ht⟩ := hinv.pref i
      exact ⟨[x] ++ t, by rw [← List.append_assoc, hp, ht]⟩
    · rw [getD_set_ne _ _ (fun hh => hi hh.symm)]
      exact hinv.pref i
  · intro k y i hky hki
    by_cases hk : k < train.length
    · rw [List.get?_append hk] at hky
      rw [List.get?_append (by rw [← hinv.tt_len]; exact hk)] at hki
      exact hinv.pair k y i hky hki
    · have hk1 : k < train.length + 1 := by
        have := (List.get?_eq_some.mp hky).fst
        simpa using this
      have hkeq : k = train.length := by omega
      subst hkeq
      rw [List.get?_concat_length] at hky
      rw [hinv.tt_len, List.get?_concat_length] at hki
      cases hky
      cases hki
      obtain ⟨t, ht⟩ := hinv.pref d
      rw [← ht]
      exact List.mem_append_left t (getLast?_mem_self hx)

lemma randLoop_inv {α : Type} (pools : List (List α)) :
    ∀ (draws : List Nat) (cur : List (List α)) (train : List α)
      (target : List Nat) (fin : List (List α)) (tr : List α)
      (tg : List Nat),
      RandInv pools cur train target →
      randLoop draws cur train target ((cur.map List.length).sum)
        = some (fin, tr, tg) →
      RandInv pools fin tr tg ∧ (fin.map List.length).sum = 0 := by
  intro draws
  induction draws with
  | nil =>
    intro cur train target fin tr tg hinv hrun
    cases hsum : (cur.map List.length).sum with
    | zero =>
      rw [hsum, randLoop_zero] at hrun
      obtain ⟨rfl, rfl, rfl⟩ := Option.some.inj hrun
      exact ⟨hinv, hsum⟩
    | succ m =>
      rw [hsum, randLoop_nil_succ] at hrun
      cases hrun
  | cons d rest ih =>
    intro cur train target fin tr tg hinv hrun
    cases hsum : (cur.map List.length).sum with
    | zero =>
      rw [hsum, randLoop_zero] at hrun
      obtain ⟨rfl, rfl, rfl⟩ := Option.some.inj hrun
      exact ⟨hinv, hsum⟩
    | succ m =>
      rw [hsum] at hrun
      cases hx : (cur.getD d []).getLast? with
      | none =>
        rw [randLoop_skip hx, ← hsum] at hrun
        exact ih cur train target fin tr tg hinv hrun
      | some x =>
        rw [randLoop_pop hx] at hrun
        have hm : ((cur.set d (cur.getD d []).dropLast).map
            List.length).sum = m := by
          have := sumLen_set_pop cur d x hx
          omega
        rw [← hm] at hrun
        exact ih _ _ _ fin tr tg (hinv.pop hx) hrun

lemma getD_eq_nil_of_all_nil {α : Type} {fin : List (List α)}
    (hall : ∀ p ∈ fin, p = []) (i : Nat) : fin.getD i [] = [] := by
  rw [List.getD_eq_getElem?_getD]
  cases hfi : fin[i]? with
  | none => rfl
  | some p => simp [hall p (List.getElem?_mem hfi)]

/-- C1: whenever `randomizeData` returns, `trainData` and `targetData`
have equal length; the multiset of rows in `trainData` is exactly the
union of the rows of all input pools; label `i` occurs in `targetData`
exactly as often as pool `i` originally had rows; each row is paired
positionally with the index of a pool it came from; and every input pool
has been drained empty. -/
theorem randomizeData_spec {α : Type} (draws : List Nat)
    (pools fin : List (List α)) (tr : List α) (tg : List Nat)
    (h : randomizeData draws pools = some (fin, tr, tg)) :
    tr.length = tg.length ∧
    (tr : Multiset α) = (pools.flatten : Multiset α) ∧
    (∀ i, tg.count i = (pools.getD i []).length) ∧
    (∀ k x i, tr.get? k = some x → tg.get? k = some i →
      x ∈ pools.getD i []) ∧
    (∀ p ∈ fin, p = []) := by
  obtain ⟨hinv, hzero⟩ :=
    randLoop_inv pools draws pools [] [] fin tr tg (RandInv.init pools) h
  have hall : ∀ p ∈ fin, p = [] := by
    intro p hp
    exact List.length_eq_zero.mp
      (List.sum_eq_zero_iff.mp hzero p.length (List.mem_map_of_mem _ hp))
  have hflat : fin.flatten = [] := by
    rw [← List.length_eq_zero, List.length_flatten]
    exact hzero
  refine ⟨hinv.tt_len, ?_, ?_, hinv.pair, hall⟩
  · have hm := hinv.mset
    rw [hflat] at hm
    simpa using hm
  · intro i
    have hc := hinv.cnt i
    rw [getD_eq_nil_of_all_nil hall i] at hc
    simpa using hc

/-- Witness for C1: a run on pools `[[10,20],[30]]` with draw stream
`[0,1,0]` returns, and its outputs satisfy the guarantees. -/
theorem randomizeData_spec_witness :
    ([20, 30, 10] : List ℕ).length = ([0, 1, 0] : List ℕ).length ∧
    (([20, 30, 10] : List ℕ) : Multiset ℕ)
      = (([[10, 20], [30]] : List (List ℕ)).flatten : Multiset ℕ) ∧
    ([0, 1, 0] : List ℕ).count 0
      = (([[10, 20], [30]] : List (List ℕ)).getD 0 []).length := by
  have h := randomizeData_spec [0, 1, 0] [[10, 20], [30]] [[], []]
    [20, 30, 10] [0, 1, 0] (by decide)
  exact ⟨h.1, h.2.1, h.2.2.1 0⟩

lemma exists_nonempty_pool {α : Type} {cur : List (List α)}
    (h : 0 < (cur.map List.length).sum) :
    ∃ d, d < cur.length ∧ (cur.getD d []).getLast?.isSome = true := by
  by_contra hc
  push_neg at hc
  have hz : ∀ x ∈ cur.map List.length, x = 0 := by
    intro x hx
    rw [List.mem_map] at hx
    obtain ⟨p, hp, rfl⟩ := hx
    obtain ⟨d, hd⟩ := List.getElem?_of_mem hp
    have hdlen : d < cur.length := (List.getElem?_eq_some.mp hd).fst
    have hgd : cur.getD d [] = p := by
      rw [List.getD_eq_getElem?_getD, hd]; rfl
    have hnot := hc d hdlen
    rw [hgd] at hnot
    have hpnil : p = [] := by
      by_contra hpne
      exact hnot (List.getLast?_isSome.mpr hpne)
    simp [hpnil]
  rw [List.sum_eq_zero hz] at h
  exact absurd h (lt_irrefl 0)

lemma exists_draws {α : Type} :
    ∀ (n : Nat) (cur : List (List α)) (train : List α) (target : List Nat),
      (cur.map List.length).sum = n →
      ∃ draws : List Nat, (∀ r ∈ draws, r < cur.length) ∧
        (randLoop draws cur train target n).isSome = true := by
  intro n
  induction n with
  | zero =>
    intro cur train target _
    exact ⟨[], by simp, by rw [randLoop_zero]; rfl⟩
  | succ m ih =>
    intro cur train target h
    obtain ⟨d, hdlen, hsome⟩ := @exists_nonempty_pool _ cur (by omega)
    obtain ⟨x, hx⟩ := Option.isSome_iff_exists.mp hsome
    have hm : ((cur.set d (cur.getD d []).dropLast).map List.length).sum
        = m := by
      have := sumLen_set_pop cur d x hx
      omega
    obtain ⟨draws', hvalid, hsucc⟩ :=
      ih (cur.set d (cur.getD d []).dropLast) (train ++ [x])
        (target ++ [d]) hm
    refine ⟨d :: draws', ?_, ?_⟩
    · intro r hr
      rcases List.mem_cons.mp hr with rfl | hr'
      · exact hdlen
      · have := hvalid r hr'
        rwa [List.length_set] at this
    · rw [randLoop_pop hx]
      exact hsucc

/-- C2: the loop's step structure and termination.  With the remaining
count at `0` the loop ends at once, returning the state; a draw of a
non-empty pool pops that pool's last row, appends it with the drawn
index, and decrements the count; a draw of an empty pool retries without
decrementing and without error; and for every pool list some sequence of
in-range draws (the oracle eventually hitting non-empty pools) makes the
function return. -/
theorem randomizeData_loop_structure {α : Type} :
    (∀ (draws : List Nat) (cur : List (List α)) (train : List α)
       (target : List Nat),
      randLoop draws cur train target 0 = some (cur, train, target)) ∧
    (∀ (d : Nat) (rest : List Nat) (cur : List (List α)) (train : List α)
       (target : List Nat) (n : Nat) (x : α),
      (cur.getD d []).getLast? = some x →
      randLoop (d :: rest) cur train target (n + 1)
        = randLoop rest (cur.set d (cur.getD d []).dropLast)
            (train ++ [x]) (target ++ [d]) n) ∧
    (∀ (d : Nat) (rest : List Nat) (cur : List (List α)) (train : List α)
       (target : List Nat) (n : Nat),
      (cur.getD d []).getLast? = none →
      randLoop (d :: rest) cur train target (n + 1)
        = randLoop rest cur train target (n + 1)) ∧
    (∀ pools : List (List α), ∃ draws : List Nat,
      (∀ r ∈ draws, r < pools.length) ∧
      (randomizeData draws pools).isSome = true) :=
  ⟨fun draws cur train target => randLoop_zero draws cur train target,
   fun _ rest _ train target n _ hx => randLoop_pop hx rest train target n,
   fun _ rest _ train target n hx => randLoop_skip hx rest train target n,
   fun pools => exists_draws _ pools [] [] rfl⟩

/-- Witness for C2: the step equations at concrete states (non-empty
pool hit, empty pool retried, zero count returning) and termination for
a concrete pool list. -/
theorem randomizeData_loop_structure_witness :
    randLoop ([] : List Nat) [[(5 : ℕ)]] [] [] 0 = some ([[5]], [], []) ∧
    randLoop [0] [[(5 : ℕ)]] [] [] 1 = randLoop [] [([] : List ℕ)] [5] [0] 0 ∧
    randLoop [1] [[(5 : ℕ)], []] [] [] 1
      = randLoop [] [[(5 : ℕ)], []] [] [] 1 ∧
    ∃ draws : List Nat, (∀ r ∈ draws, r < 1) ∧
      (randomizeData draws [[(5 : ℕ)]]).isSome = true := by
  refine ⟨randomizeData_loop_structure.1 [] [[5]] [] [], ?_,
    randomizeData_loop_structure.2.2.1 1 [] [[(5 : ℕ)], []] [] [] 0 rfl,
    randomizeData_loop_structure.2.2.2 [[5]]⟩
  exact randomizeData_loop_structure.2.1 0 [] [[5]] [] [] 0 5 rfl

end HHESTIA
